import Mathlib

/-!
Verification of the stock-investment simulation scripts.

The repository holds two scripts over per-instrument CSV price histories:
a lump-sum simulator (main.py) and a monthly recurring (DCA) simulator
(test.py).  This file embeds the data model and the per-instrument and
aggregate computations of both scripts and proves or refutes the frozen
claims about them.

Dates are modelled at day granularity (the scripts normalize timestamps to
UTC and compare at day granularity for the exact-date filter); rational
numbers stand for the scripts' floating-point values, with exact
arithmetic.  Rows whose date failed to parse are modelled with `none`
dates, mirroring `pd.to_datetime(..., errors='coerce')` followed by
`dropna`.
-/

namespace StockSim

/-- Calendar date at day granularity (UTC), as the scripts use after
normalization. -/
structure Date where
  year : Nat
  month : Nat
  day : Nat
  deriving DecidableEq, Repr

/-- Numeric key giving the chronological order of valid dates. -/
def Date.key (d : Date) : Nat := 10000 * d.year + 100 * d.month + d.day

/-- Dates with fields in calendar ranges; the key order is chronological on
these. -/
def ValidDate (d : Date) : Prop :=
  1 ≤ d.month ∧ d.month ≤ 12 ∧ 1 ≤ d.day ∧ d.day ≤ 31

instance : DecidablePred ValidDate := fun d =>
  inferInstanceAs (Decidable (1 ≤ d.month ∧ d.month ≤ 12 ∧ 1 ≤ d.day ∧ d.day ≤ 31))

/-- Month-start date of the month with absolute index `i` (index `12 * year
+ month - 1`). -/
def msDate (i : Nat) : Date := ⟨i / 12, i % 12 + 1, 1⟩

/-- Chronological key of the month start with index `i`. -/
def msKey (i : Nat) : Nat := (msDate i).key

/-- Absolute month index of a date's month. -/
def Date.monthIdx (d : Date) : Nat := 12 * d.year + (d.month - 1)

/-- Month index of the first month start on or after `d`: `d`'s own month
when `d` is a first-of-month, the next month otherwise.  This is how
`pd.date_range(freq='MS')` anchors its first element. -/
def rollForwardIdx (d : Date) : Nat :=
  if d.day = 1 then d.monthIdx else d.monthIdx + 1

/-- Month starts generated by stepping one month at a time from index `i`
while the month start is at or before `endKey`, with enough fuel. -/
def genMS (endKey : Nat) : Nat → Nat → List Date
  | 0, _ => []
  | Nat.succ fuel, i =>
    if msKey i ≤ endKey then msDate i :: genMS endKey fuel (i + 1) else []

/-- Embedding of `pd.date_range(start=start, end=stop, freq='MS')`: month
starts from the first one on or after `start`, stepping one calendar month
at a time, while at or before `stop`. -/
def dateRangeMS (start stop : Date) : List Date :=
  genMS stop.key (12 * (stop.year + 2) - rollForwardIdx start) (rollForwardIdx start)

/-- Raw CSV row after `pd.to_datetime(..., errors='coerce')`: `none` date
models NaT (unparseable). -/
structure Row where
  date : Option Date
  low : ℚ
  close : ℚ
  deriving DecidableEq, Repr

/-- Row with a successfully parsed date. -/
structure PRow where
  date : Date
  low : ℚ
  close : ℚ
  deriving DecidableEq, Repr

/-- Embedding of `dropna(subset=['Date'])` after coercing: keeps the rows
whose date parsed, in file order. -/
def parseRows (rows : List Row) : List PRow :=
  rows.filterMap fun r => r.date.map fun d => ⟨d, r.low, r.close⟩

/-- Chronological comparison of parsed rows, the sort key of
`sort_values(by='Date')`. -/
def dateRel (a b : PRow) : Prop := a.date.key ≤ b.date.key

instance : DecidableRel dateRel := fun a b =>
  inferInstanceAs (Decidable (a.date.key ≤ b.date.key))

instance : IsTotal PRow dateRel := ⟨fun a b => Nat.le_total a.date.key b.date.key⟩

instance : IsTrans PRow dateRel := ⟨fun _ _ _ h h' => Nat.le_trans h h'⟩

/-- Embedding of `dropna(...).sort_values(by='Date')` in test.py: parsed
rows, stably sorted ascending by date. -/
def sortedParsed (rows : List Row) : List PRow :=
  List.insertionSort dateRel (parseRows rows)

/-- Embedding of `data = data[data['Date'] >= start_investment_date]` in
test.py: the sorted series restricted to dates at or after `sD`. -/
def restricted (rows : List Row) (sD : Date) : List PRow :=
  (sortedParsed rows).filter fun r => decide (sD.key ≤ r.date.key)

/-- Embedding of `data[data['Date'] <= invest_date].iloc[-1:]` in test.py:
the last row of the series whose date is at or before `d`, if any. -/
def resolve (data : List PRow) (d : Date) : Option PRow :=
  (data.filter fun r => decide (r.date.key ≤ d.key)).getLast?

/-- Per-instrument result of the lump-sum script (the dict stored in
`results[stock_name]` in main.py). -/
structure LOutcome where
  sharesBought : ℚ
  purchasePrice : ℚ
  sellingPrice : ℚ
  profit : ℚ
  profitPct : ℚ
  deriving DecidableEq, Repr

/-- Embedding of the per-instrument body of main.py's loop: drop
unparseable dates (no sort), filter for the exact purchase date (string
comparison at day granularity), take the first match's low, the last row's
close, and compute shares, profit and profit percentage.  `none` models
the `continue` when the purchase date is absent. -/
def lumpSum (rows : List Row) (pD : Date) (alloc : ℚ) : Option LOutcome :=
  match ((parseRows rows).filter fun r => decide (r.date = pD)).head? with
  | none => none
  | some p =>
    match (parseRows rows).getLast? with
    | none => none
    | some lastRow =>
      some ⟨alloc / p.low, p.low, lastRow.close,
        alloc / p.low * lastRow.close - alloc,
        (alloc / p.low * lastRow.close - alloc) / alloc * 100⟩

/-- Embedding of main.py's loop over `target_files`: each instrument is a
name with its raw rows; successful simulations are collected in insertion
order, skips contribute nothing. -/
def processAllMain (basket : List (String × List Row)) (pD : Date) (alloc : ℚ) :
    List (String × LOutcome) :=
  basket.filterMap fun sr => (lumpSum sr.2 pD alloc).map fun o => (sr.1, o)

/-- Embedding of `total_profit = sum(result['Profit'] for ...)` in main.py. -/
def totalProfitMain (results : List (String × LOutcome)) : ℚ :=
  (results.map fun x => x.2.profit).sum

/-- Per-instrument result of the recurring script (the dict stored in
`results[stock_name]` in test.py), together with the purchase events
appended to `investment_history[stock_name]` as (date, shares, price). -/
structure ROutcome where
  totalShares : ℚ
  totalInvestment : ℚ
  finalPrice : ℚ
  profit : ℚ
  profitPct : ℚ
  history : List (Date × ℚ × ℚ)
  deriving DecidableEq, Repr

/-- Embedding of test.py's `for invest_date in monthly_dates` loop: for
each date, resolve the last row at or before it in `data`; on success
accumulate shares and investment and record the purchase event, otherwise
skip the period.  Returns (total_shares, total_investment, history). -/
def investLoop (data : List PRow) (alloc : ℚ) :
    List Date → ℚ × ℚ × List (Date × ℚ × ℚ)
  | [] => (0, 0, [])
  | d :: ds =>
    match resolve data d with
    | none => investLoop data alloc ds
    | some row =>
      let acc := investLoop data alloc ds
      (alloc / row.low + acc.1, alloc + acc.2.1, (d, alloc / row.low, row.low) :: acc.2.2)

/-- Per-instrument computation of test.py on a non-empty restricted series
`r0 :: rest`: `rest.getLastD r0` is the series' last row (`iloc[-1]`),
`dateRangeMS` generates the monthly investment dates from the restricted
range, `investLoop` accumulates the purchases, and the profit percentage
is guarded by `total_investment > 0`. -/
def recurringCore (r0 : PRow) (rest : List PRow) (alloc : ℚ) : ROutcome :=
  { totalShares :=
      (investLoop (r0 :: rest) alloc (dateRangeMS r0.date (rest.getLastD r0).date)).1
    totalInvestment :=
      (investLoop (r0 :: rest) alloc (dateRangeMS r0.date (rest.getLastD r0).date)).2.1
    finalPrice := (rest.getLastD r0).close
    profit :=
      (investLoop (r0 :: rest) alloc (dateRangeMS r0.date (rest.getLastD r0).date)).1 *
          (rest.getLastD r0).close -
        (investLoop (r0 :: rest) alloc (dateRangeMS r0.date (rest.getLastD r0).date)).2.1
    profitPct :=
      if (investLoop (r0 :: rest) alloc (dateRangeMS r0.date (rest.getLastD r0).date)).2.1
          > 0 then
        ((investLoop (r0 :: rest) alloc (dateRangeMS r0.date (rest.getLastD r0).date)).1 *
            (rest.getLastD r0).close -
          (investLoop (r0 :: rest) alloc
            (dateRangeMS r0.date (rest.getLastD r0).date)).2.1) /
          (investLoop (r0 :: rest) alloc
            (dateRangeMS r0.date (rest.getLastD r0).date)).2.1 * 100
      else 0
    history :=
      (investLoop (r0 :: rest) alloc (dateRangeMS r0.date (rest.getLastD r0).date)).2.2 }

/-- Embedding of the per-instrument body of test.py's loop: sort, restrict
to dates at or after `sD` (`none` models the skip when empty), then run
`recurringCore` on the non-empty restricted series. -/
def recurring (rows : List Row) (sD : Date) (alloc : ℚ) : Option ROutcome :=
  match restricted rows sD with
  | [] => none
  | r0 :: rest => some (recurringCore r0 rest alloc)

/-- Embedding of `sum(result['Profit'] ...)` in test.py. -/
def totalProfitTest (results : List (String × ROutcome)) : ℚ :=
  (results.map fun x => x.2.profit).sum

/-- Embedding of `sum(result['Total Investment'] ...)` in test.py. -/
def totalInvestedTest (results : List (String × ROutcome)) : ℚ :=
  (results.map fun x => x.2.totalInvestment).sum

/-- Embedding of test.py line 107: the guarded aggregate profit
percentage. -/
def totalProfitPercentTest (results : List (String × ROutcome)) : ℚ :=
  if totalInvestedTest results > 0 then
    totalProfitTest results / totalInvestedTest results * 100
  else 0

/-- Python error values relevant to the budget split. -/
inductive PyError where
  | zeroDivisionError
  | emptyBasketError
  deriving DecidableEq, Repr

/-- Embedding of `split_percentage = 1 / len(target_files)` (main.py line
24, test.py line 12): Python raises ZeroDivisionError when the length is
zero, otherwise true division yields the rational value. -/
def split_percentage (basket : List String) : Except PyError ℚ :=
  if basket.length = 0 then Except.error PyError.zeroDivisionError
  else Except.ok (1 / (basket.length : ℚ))

/-- Descending comparison by a rational key, the order used by
`sorted(..., key=lambda x: x[1]['Profit'], reverse=True)`. -/
def profRel {α : Type} (kf : α → ℚ) (a b : α) : Prop := kf b ≤ kf a

instance {α : Type} (kf : α → ℚ) : DecidableRel (profRel kf) := fun a b =>
  inferInstanceAs (Decidable (kf b ≤ kf a))

instance {α : Type} (kf : α → ℚ) : IsTotal α (profRel kf) :=
  ⟨fun a b => le_total (kf b) (kf a)⟩

instance {α : Type} (kf : α → ℚ) : IsTrans α (profRel kf) :=
  ⟨fun _ _ _ h h' => le_trans h' h⟩

/-- Embedding of Python's stable `sorted(..., reverse=True)` by a rational
key: a stable sort placing larger keys first. -/
def sortByKeyDesc {α : Type} (kf : α → ℚ) (l : List α) : List α :=
  List.insertionSort (profRel kf) l

/-- Embedding of `sorted_results` in main.py (line 108). -/
def sortedResultsMain (results : List (String × LOutcome)) : List (String × LOutcome) :=
  sortByKeyDesc (fun x => x.2.profit) results

/-- Embedding of `sorted_results` in test.py (line 110). -/
def sortedResultsTest (results : List (String × ROutcome)) : List (String × ROutcome) :=
  sortByKeyDesc (fun x => x.2.profit) results

/-- Selling price as claim C2 describes it: the close of the row with the
maximal date, read off the date-sorted parsed series. -/
def specSellingPrice (rows : List Row) : Option ℚ :=
  ((sortedParsed rows).getLast?).map PRow.close

/-! ### Month-start generation: characterization of `dateRangeMS` -/

theorem msKey_lt_succ (i : Nat) : msKey i < msKey (i + 1) := by
  simp only [msKey, msDate, Date.key]
  omega

theorem msKey_strictMono : StrictMono msKey :=
  strictMono_nat_of_lt_succ msKey_lt_succ

theorem msKey_mono {i j : Nat} (h : i ≤ j) : msKey i ≤ msKey j :=
  msKey_strictMono.monotone h

theorem mem_genMS {ek : Nat} :
    ∀ (fuel i : Nat) (d : Date),
      d ∈ genMS ek fuel i ↔ ∃ k, k < fuel ∧ d = msDate (i + k) ∧ msKey (i + k) ≤ ek := by
  intro fuel
  induction fuel with
  | zero => intro i d; simp [genMS]
  | succ n ih =>
    intro i d
    simp only [genMS]
    by_cases h : msKey i ≤ ek
    · rw [if_pos h]
      simp only [List.mem_cons, ih]
      constructor
      · rintro (rfl | ⟨k, hk, rfl, hke⟩)
        · exact ⟨0, Nat.succ_pos n, by simp, by simpa using h⟩
        · exact ⟨k + 1, by omega, by rw [show i + (k + 1) = i + 1 + k by omega],
            by rw [show i + (k + 1) = i + 1 + k by omega]; exact hke⟩
      · rintro ⟨k, hk, rfl, hke⟩
        cases k with
        | zero => left; simp
        | succ k' =>
          right
          exact ⟨k', by omega, by rw [show i + 1 + k' = i + (k' + 1) by omega],
            by rw [show i + 1 + k' = i + (k' + 1) by omega]; exact hke⟩
    · rw [if_neg h]
      simp only [List.not_mem_nil, false_iff, not_exists, not_and]
      rintro k _ rfl
      exact fun hke => h (le_trans (msKey_mono (Nat.le_add_right i k)) hke)

theorem key_le_msKey_rollForwardIdx {d : Date} (hd : ValidDate d) :
    d.key ≤ msKey (rollForwardIdx d) := by
  obtain ⟨h1, h2, h3, h4⟩ := hd
  simp only [rollForwardIdx, Date.monthIdx, msKey, msDate, Date.key]
  split <;> omega

theorem msKey_lt_key_of_lt_rollForwardIdx {d : Date} (hd : ValidDate d) {j : Nat}
    (hj : j < rollForwardIdx d) : msKey j < d.key := by
  obtain ⟨h1, h2, h3, h4⟩ := hd
  simp only [rollForwardIdx, Date.monthIdx, msKey, msDate, Date.key] at hj ⊢
  by_cases hday : d.day = 1
  · rw [if_pos hday] at hj
    omega
  · rw [if_neg hday] at hj
    omega

theorem rollForwardIdx_le_iff {d : Date} (hd : ValidDate d) (j : Nat) :
    rollForwardIdx d ≤ j ↔ d.key ≤ msKey j := by
  constructor
  · intro h
    exact le_trans (key_le_msKey_rollForwardIdx hd) (msKey_mono h)
  · intro h
    by_contra hc
    push_neg at hc
    exact absurd h (not_le.mpr (msKey_lt_key_of_lt_rollForwardIdx hd hc))

theorem idx_lt_of_msKey_le {e : Date} (he : ValidDate e) {j : Nat}
    (hj : msKey j ≤ e.key) : j < 12 * (e.year + 2) := by
  obtain ⟨h1, h2, h3, h4⟩ := he
  simp only [msKey, msDate, Date.key] at hj
  omega

theorem msDate_monthIdx {d : Date} (h1 : 1 ≤ d.month) (h2 : d.month ≤ 12)
    (hday : d.day = 1) : msDate d.monthIdx = d := by
  obtain ⟨y, m, dy⟩ := d
  simp only [msDate, Date.monthIdx, Date.mk.injEq] at *
  refine ⟨by omega, by omega, by omega⟩

theorem msKey_monthIdx {d : Date} (h1 : 1 ≤ d.month) (h2 : d.month ≤ 12) :
    msKey d.monthIdx = 10000 * d.year + 100 * d.month + 1 := by
  simp only [msKey, msDate, Date.monthIdx, Date.key]
  omega

/-- Characterization of the generated monthly investment dates: they are
exactly the (valid) first-of-month dates lying between `start` and `stop`
inclusive. -/
theorem mem_dateRangeMS {start stop : Date} (hs : ValidDate start)
    (he : ValidDate stop) (d : Date) :
    d ∈ dateRangeMS start stop ↔
      d.day = 1 ∧ 1 ≤ d.month ∧ d.month ≤ 12 ∧
        start.key ≤ d.key ∧ d.key ≤ stop.key := by
  rw [dateRangeMS, mem_genMS]
  constructor
  · rintro ⟨k, hk, rfl, hke⟩
    refine ⟨rfl, by simp [msDate], by simp only [msDate]; omega, ?_, hke⟩
    exact (rollForwardIdx_le_iff hs _).mp (Nat.le_add_right _ k)
  · rintro ⟨hday, hm1, hm2, hsk, hek⟩
    have hmd : msDate d.monthIdx = d := msDate_monthIdx hm1 hm2 hday
    have hkeyd : msKey d.monthIdx = d.key := by
      show (msDate d.monthIdx).key = d.key
      rw [hmd]
    have hle : rollForwardIdx start ≤ d.monthIdx :=
      (rollForwardIdx_le_iff hs _).mpr (by rw [hkeyd]; exact hsk)
    have hlt : d.monthIdx < 12 * (stop.year + 2) :=
      idx_lt_of_msKey_le he (by rw [hkeyd]; exact hek)
    refine ⟨d.monthIdx - rollForwardIdx start, by omega, ?_, ?_⟩
    · rw [show rollForwardIdx start + (d.monthIdx - rollForwardIdx start) = d.monthIdx
        by omega, hmd]
    · rw [show rollForwardIdx start + (d.monthIdx - rollForwardIdx start) = d.monthIdx
        by omega, hkeyd]
      exact hek

theorem genMS_stop {ek fuel i : Nat} (h : ¬ msKey i ≤ ek) : genMS ek fuel i = [] := by
  cases fuel <;> simp [genMS, h]

theorem genMS_cons {ek fuel i : Nat} (h : msKey i ≤ ek) (hf : fuel ≠ 0) :
    genMS ek fuel i = msDate i :: genMS ek (fuel - 1) (i + 1) := by
  cases fuel with
  | zero => exact absurd rfl hf
  | succ n => simp [genMS, h]

/-- A valid first-of-month date generates exactly itself when it is both
the start and the end of the range. -/
theorem dateRangeMS_self {d : Date} (h1 : 1 ≤ d.month) (h2 : d.month ≤ 12)
    (hday : d.day = 1) : dateRangeMS d d = [d] := by
  have hroll : rollForwardIdx d = d.monthIdx := by rw [rollForwardIdx, if_pos hday]
  have hkey : msKey d.monthIdx = d.key := by
    show (msDate d.monthIdx).key = d.key
    rw [msDate_monthIdx h1 h2 hday]
  have hfuel : 12 * (d.year + 2) - rollForwardIdx d ≠ 0 := by
    rw [hroll]; simp only [Date.monthIdx]; omega
  rw [dateRangeMS, hroll] at *
  rw [genMS_cons (le_of_eq hkey) hfuel, msDate_monthIdx h1 h2 hday,
    genMS_stop (by rw [← hkey]; exact not_le.mpr (msKey_lt_succ _))]

/-! ### Sorted series and nearest-prior-date resolution -/

theorem sortedParsed_pairwise (rows : List Row) :
    (sortedParsed rows).Pairwise dateRel :=
  List.sorted_insertionSort dateRel (parseRows rows)

theorem mem_sortedParsed {rows : List Row} {x : PRow} :
    x ∈ sortedParsed rows ↔ x ∈ parseRows rows :=
  (List.perm_insertionSort dateRel (parseRows rows)).mem_iff

theorem getLast?_rel {α : Type} {R : α → α → Prop} :
    ∀ {l : List α}, l.Pairwise R → ∀ {p : α}, l.getLast? = some p →
      ∀ q ∈ l, q = p ∨ R q p := by
  intro l
  induction l with
  | nil => intro _ p hp; simp at hp
  | cons a t ih =>
    intro hpw p hlast q hq
    obtain ⟨ha, ht⟩ := List.pairwise_cons.mp hpw
    cases t with
    | nil =>
      simp only [List.getLast?_singleton, Option.some.injEq] at hlast
      simp only [List.mem_singleton] at hq
      left; rw [hq, hlast]
    | cons b t' =>
      rw [List.getLast?_cons_cons] at hlast
      rcases List.mem_cons.mp hq with rfl | hq'
      · right
        exact ha p (List.mem_of_mem_getLast? hlast)
      · exact ih ht hlast q hq'

theorem getLast?_cons_of_ne_nil {α : Type} {t : List α} (a : α) (h : t ≠ []) :
    (a :: t).getLast? = t.getLast? := by
  cases t with
  | nil => exact absurd rfl h
  | cons b t' => exact List.getLast?_cons_cons

/-- Resolution over the slice restricted to keys at or after `s` agrees
with resolution over the full sorted series, whenever some restricted row
is at or before the target date. -/
theorem resolve_restrict :
    ∀ {l : List PRow}, l.Pairwise dateRel → ∀ {s : Nat} {d : Date},
      (∃ x ∈ l.filter fun r => decide (s ≤ r.date.key), x.date.key ≤ d.key) →
      resolve (l.filter fun r => decide (s ≤ r.date.key)) d = resolve l d := by
  intro l
  induction l with
  | nil => intro _ s d _; rfl
  | cons a t ih =>
    intro hpw s d hex
    obtain ⟨ha, ht⟩ := List.pairwise_cons.mp hpw
    by_cases hs : s ≤ a.date.key
    · have heq : (a :: t).filter (fun r => decide (s ≤ r.date.key)) = a :: t := by
        rw [List.filter_eq_self]
        intro x hx
        rcases List.mem_cons.mp hx with rfl | hx'
        · simpa using hs
        · simpa using le_trans hs (ha x hx')
      rw [heq]
    · have heq : (a :: t).filter (fun r => decide (s ≤ r.date.key)) =
          t.filter (fun r => decide (s ≤ r.date.key)) := by
        rw [List.filter_cons, if_neg (by simpa using hs)]
      rw [heq] at hex ⊢
      obtain ⟨x, hxf, hxd⟩ := hex
      have hxt : x ∈ t := List.mem_of_mem_filter hxf
      have hrec : resolve (t.filter fun r => decide (s ≤ r.date.key)) d = resolve t d :=
        ih ht ⟨x, hxf, hxd⟩
      rw [hrec]
      show resolve t d = resolve (a :: t) d
      unfold resolve
      rw [List.filter_cons]
      by_cases had : a.date.key ≤ d.key
      · rw [if_pos (by simpa using had)]
        have hne : t.filter (fun r => decide (r.date.key ≤ d.key)) ≠ [] :=
          List.ne_nil_of_mem (List.mem_filter.mpr ⟨hxt, by simpa using hxd⟩)
        rw [getLast?_cons_of_ne_nil a hne]
      · rw [if_neg (by simpa using had)]

/-- A row at or before the target date guarantees that resolution
succeeds. -/
theorem resolve_isSome {data : List PRow} {x : PRow} {d : Date}
    (hx : x ∈ data) (hxd : x.date.key ≤ d.key) : ∃ p, resolve data d = some p := by
  have hmem : x ∈ data.filter fun r => decide (r.date.key ≤ d.key) :=
    List.mem_filter.mpr ⟨hx, by simpa using hxd⟩
  have hne : (data.filter fun r => decide (r.date.key ≤ d.key)) ≠ [] :=
    List.ne_nil_of_mem hmem
  obtain ⟨p, hp⟩ := Option.isSome_iff_exists.mp (List.getLast?_isSome.mpr hne)
  exact ⟨p, hp⟩

/-- On a sorted series, the resolved row is at or before the target date
and no row of the series lies strictly between it and the target date. -/
theorem resolve_spec {data : List PRow} (hpw : data.Pairwise dateRel) {d : Date}
    {p : PRow} (h : resolve data d = some p) :
    p.date.key ≤ d.key ∧
      ∀ q ∈ data, q.date.key ≤ d.key → q.date.key ≤ p.date.key := by
  have hpmem : p ∈ data.filter fun r => decide (r.date.key ≤ d.key) :=
    List.mem_of_mem_getLast? h
  refine ⟨by simpa using (List.mem_filter.mp hpmem).2, ?_⟩
  intro q hq hqd
  have hqf : q ∈ data.filter fun r => decide (r.date.key ≤ d.key) :=
    List.mem_filter.mpr ⟨hq, by simpa using hqd⟩
  rcases getLast?_rel (hpw.filter _) h q hqf with rfl | hR
  · exact le_refl _
  · exact hR

/-! ### Investment loop accounting -/

/-- When every generated date resolves, the loop records one purchase
event per date and invests the per-period allocation once per date. -/
theorem investLoop_all_resolve {data : List PRow} {alloc : ℚ} :
    ∀ {dates : List Date}, (∀ d ∈ dates, ∃ p, resolve data d = some p) →
      (investLoop data alloc dates).2.1 = dates.length * alloc ∧
      (investLoop data alloc dates).2.2.length = dates.length := by
  intro dates
  induction dates with
  | nil => intro _; simp [investLoop]
  | cons d ds ih =>
    intro h
    obtain ⟨p, hp⟩ := h d (List.mem_cons_self d ds)
    obtain ⟨h1, h2⟩ := ih fun x hx => h x (List.mem_cons_of_mem d hx)
    simp only [investLoop, hp, List.length_cons, h1, h2]
    constructor
    · push_cast
      ring
    · trivial

/-! ### Stability of the descending profit sort -/

theorem filter_orderedInsert_desc {α : Type} (kf : α → ℚ) (v : ℚ) (x : α) :
    ∀ l : List α,
      (List.orderedInsert (profRel kf) x l).filter (fun a => decide (kf a = v)) =
        if kf x = v then x :: l.filter (fun a => decide (kf a = v))
        else l.filter (fun a => decide (kf a = v)) := by
  intro l
  induction l with
  | nil =>
    simp only [List.orderedInsert_nil, List.filter_cons, List.filter_nil]
    split <;> simp_all
  | cons y l ih =>
    by_cases hxy : profRel kf x y
    · rw [List.orderedInsert_of_le _ _ hxy]
      by_cases hx : kf x = v <;> simp [List.filter_cons, hx]
    · rw [show List.orderedInsert (profRel kf) x (y :: l) =
          y :: List.orderedInsert (profRel kf) x l by
        simp only [List.orderedInsert, if_neg hxy]]
      by_cases hx : kf x = v
      · have hy : ¬ kf y = v := by
          intro hyv
          exact hxy (le_of_eq (hyv.trans hx.symm))
        simp [List.filter_cons, hy, ih, hx]
      · simp only [List.filter_cons, ih, if_neg hx]

/-- Stability: the sort preserves the relative order of entries with any
given profit value. -/
theorem sortByKeyDesc_filter {α : Type} (kf : α → ℚ) (v : ℚ) :
    ∀ l : List α,
      (sortByKeyDesc kf l).filter (fun a => decide (kf a = v)) =
        l.filter (fun a => decide (kf a = v)) := by
  intro l
  induction l with
  | nil => rfl
  | cons x l ih =>
    show (List.orderedInsert (profRel kf) x
        (List.insertionSort (profRel kf) l)).filter _ = _
    rw [filter_orderedInsert_desc, List.filter_cons]
    by_cases hx : kf x = v
    · rw [if_pos hx, if_pos (by simp [hx])]
      exact congrArg _ ih
    · rw [if_neg hx, if_neg (by simp [hx])]
      exact ih

/-- The sort's output is pairwise non-increasing in the key. -/
theorem sortByKeyDesc_pairwise {α : Type} (kf : α → ℚ) (l : List α) :
    (sortByKeyDesc kf l).Pairwise fun a b => kf b ≤ kf a :=
  List.sorted_insertionSort (profRel kf) l

theorem getLastD_mem_cons {α : Type} : ∀ (l : List α) (a : α), l.getLastD a ∈ a :: l := by
  intro l
  induction l with
  | nil => intro a; exact List.mem_singleton_self a
  | cons b t ih =>
    intro a
    rcases List.mem_cons.mp (ih b) with h | h
    · rw [List.getLastD_cons, h]
      exact List.mem_cons_of_mem a (List.mem_cons_self b t)
    · rw [List.getLastD_cons]
      exact List.mem_cons_of_mem a (List.mem_cons_of_mem b h)

/-! ### Claims -/

/-- C1: when the parsed series has exactly one point at the purchase date,
the lump-sum simulator returns shares_bought = allocation / that point's
low, selling_price = the close of the series' last point, profit =
shares * selling_price − allocation, and profit_pct = profit / allocation
* 100. -/
theorem c1 (rows : List Row) (pD : Date) (alloc : ℚ) (p : PRow)
    (hp : (parseRows rows).filter (fun r => decide (r.date = pD)) = [p]) :
    lumpSum rows pD alloc =
      ((parseRows rows).getLast?).map fun lastRow =>
        ⟨alloc / p.low, p.low, lastRow.close,
          alloc / p.low * lastRow.close - alloc,
          (alloc / p.low * lastRow.close - alloc) / alloc * 100⟩ := by
  have hmem0 : p ∈ (parseRows rows).filter fun r => decide (r.date = pD) := by
    rw [hp]
    exact List.mem_singleton_self p
  have hmem : p ∈ parseRows rows := List.mem_of_mem_filter hmem0
  have hne : parseRows rows ≠ [] := List.ne_nil_of_mem hmem
  obtain ⟨lastRow, hlast⟩ := Option.isSome_iff_exists.mp (List.getLast?_isSome.mpr hne)
  simp only [lumpSum, hp, List.head?_cons, hlast, Option.map_some']

/-- Witness for C1: the spec's scenario, series
[(2024-03-01, low 90, close 95), (2024-06-01, low 100, close 110)] with
allocation 100 and purchase date 2024-03-01 gives shares 10/9, selling
price 110, profit 200/9 ≈ 22.22 and profit percentage 200/9 ≈ 22.22. -/
theorem c1_witness :
    lumpSum [⟨some ⟨2024, 3, 1⟩, 90, 95⟩, ⟨some ⟨2024, 6, 1⟩, 100, 110⟩]
        ⟨2024, 3, 1⟩ 100 =
      some ⟨10 / 9, 90, 110, 200 / 9, 200 / 9⟩ := by
  rw [c1 [⟨some ⟨2024, 3, 1⟩, 90, 95⟩, ⟨some ⟨2024, 6, 1⟩, 100, 110⟩]
    ⟨2024, 3, 1⟩ 100 ⟨⟨2024, 3, 1⟩, 90, 95⟩ rfl]
  norm_num [parseRows]

/-- C2 counterexample: main.py never sorts the parsed frame, so with the
two rows in reverse chronological file order the selling price used is 95
(the close of the last row in file order), not 110 (the close of the row
with the maximal date). -/
theorem c2_counterexample :
    (lumpSum [⟨some ⟨2024, 6, 1⟩, 100, 110⟩, ⟨some ⟨2024, 3, 1⟩, 90, 95⟩]
        ⟨2024, 3, 1⟩ 100).map LOutcome.sellingPrice = some 95 ∧
    specSellingPrice [⟨some ⟨2024, 6, 1⟩, 100, 110⟩, ⟨some ⟨2024, 3, 1⟩, 90, 95⟩] =
      some 110 ∧ (95 : ℚ) ≠ 110 := by
  refine ⟨rfl, rfl, by norm_num⟩

/-- C2 amended: main.py does not sort after parsing; the selling price is
the close of the last remaining row in file order.  When the parsed rows
happen to be sorted ascending by date (the usual CSV layout), that row is
a row of maximal date, so the selling price is the close of a maximal-date
row. -/
theorem c2_amended (rows : List Row) (pD : Date) (alloc : ℚ)
    (hsort : (parseRows rows).Pairwise dateRel)
    (hne : (parseRows rows).filter (fun r => decide (r.date = pD)) ≠ []) :
    ((lumpSum rows pD alloc).map LOutcome.sellingPrice =
        ((parseRows rows).getLast?).map PRow.close) ∧
    ∀ lastRow, (parseRows rows).getLast? = some lastRow →
      ∀ q ∈ parseRows rows, q.date.key ≤ lastRow.date.key := by
  constructor
  · obtain ⟨p, hp⟩ :
        ∃ p, ((parseRows rows).filter fun r => decide (r.date = pD)).head? = some p := by
      cases hfl : (parseRows rows).filter fun r => decide (r.date = pD) with
      | nil => exact absurd hfl hne
      | cons a t => exact ⟨a, rfl⟩
    have hne2 : parseRows rows ≠ [] := by
      intro h0
      rw [h0] at hne
      exact hne rfl
    obtain ⟨lastRow, hlast⟩ := Option.isSome_iff_exists.mp (List.getLast?_isSome.mpr hne2)
    simp only [lumpSum, hp, hlast, Option.map_some']
  · intro lastRow hlast q hq
    rcases getLast?_rel hsort hlast q hq with rfl | hR
    · exact le_refl _
    · exact hR

/-- Witness for C2 amended: on the date-sorted two-row series the selling
price equals the close of the maximal-date row, 110. -/
theorem c2_amended_witness :
    (lumpSum [⟨some ⟨2024, 3, 1⟩, 90, 95⟩, ⟨some ⟨2024, 6, 1⟩, 100, 110⟩]
        ⟨2024, 3, 1⟩ 100).map LOutcome.sellingPrice =
      ((parseRows [⟨some ⟨2024, 3, 1⟩, 90, 95⟩, ⟨some ⟨2024, 6, 1⟩, 100, 110⟩]).getLast?).map
        PRow.close := by
  exact (c2_amended [⟨some ⟨2024, 3, 1⟩, 90, 95⟩, ⟨some ⟨2024, 6, 1⟩, 100, 110⟩]
    ⟨2024, 3, 1⟩ 100 (by simp [parseRows, List.pairwise_cons, dateRel, Date.key])
    (by simp [parseRows])).1

/-- C5 counterexample: with an empty basket the split is an unguarded
`1 / 0`, which is a ZeroDivisionError, not an EmptyBasketError. -/
theorem c5_counterexample :
    split_percentage [] = Except.error PyError.zeroDivisionError ∧
    (Except.error PyError.zeroDivisionError : Except PyError ℚ) ≠
      Except.error PyError.emptyBasketError := by
  refine ⟨rfl, fun h => ?_⟩
  injection h with h'
  exact PyError.noConfusion h'

/-- C5 amended: `split_percentage = 1 / len(target_files)` is unguarded;
an empty basket fails with ZeroDivisionError (there is no EmptyBasketError
in the code), and a non-empty basket yields the equal split 1/n. -/
theorem c5_amended (basket : List String) :
    (basket = [] → split_percentage basket = Except.error PyError.zeroDivisionError) ∧
    (basket ≠ [] → split_percentage basket = Except.ok (1 / (basket.length : ℚ))) := by
  constructor
  · rintro rfl
    rfl
  · intro h
    rw [split_percentage, if_neg (by simpa [List.length_eq_zero] using h)]

/-- Witness for C5 amended: the empty basket fails with ZeroDivisionError
and a singleton basket gets the whole budget. -/
theorem c5_amended_witness :
    split_percentage [] = Except.error PyError.zeroDivisionError ∧
    split_percentage ["AAPL"] = Except.ok 1 := by
  refine ⟨(c5_amended []).1 rfl, ?_⟩
  rw [(c5_amended ["AAPL"]).2 (by simp)]
  norm_num

/-- C6 counterexample: with a low price of −10 both simulators perform the
division and record an outcome with negative shares; neither fails, and no
InvalidPriceError exists in the code. -/
theorem c6_counterexample :
    lumpSum [⟨some ⟨2024, 3, 1⟩, -10, 95⟩] ⟨2024, 3, 1⟩ 100 =
      some ⟨-10, -10, 95, -1050, -1050⟩ ∧
    recurring [⟨some ⟨2024, 3, 1⟩, -10, 95⟩] ⟨2024, 3, 1⟩ 100 =
      some ⟨-10, 100, 95, -1050, -1050, [(⟨2024, 3, 1⟩, -10, -10)]⟩ := by
  constructor
  · norm_num [lumpSum, parseRows]
  · norm_num [recurring, recurringCore, restricted, sortedParsed, parseRows, dateRangeMS,
      genMS, rollForwardIdx, msDate, msKey, Date.key, Date.monthIdx, investLoop, resolve]

/-- C6 amended: neither simulator checks the sign of the resolved low
price.  With a negative low the lump-sum simulator still returns an
outcome whose shares_bought is allocation / low, a negative number; the
recurring simulator likewise records negative total shares (shown for a
single-point series at a valid month start). -/
theorem c6_amended :
    (∀ (rows : List Row) (pD : Date) (alloc : ℚ) (p : PRow),
      (parseRows rows).filter (fun r => decide (r.date = pD)) = [p] →
      p.low < 0 → 0 < alloc →
      (lumpSum rows pD alloc).map LOutcome.sharesBought = some (alloc / p.low) ∧
        alloc / p.low < 0) ∧
    (∀ (y m : Nat) (lw cl alloc : ℚ), 1 ≤ m → m ≤ 12 → lw < 0 → 0 < alloc →
      (recurring [⟨some ⟨y, m, 1⟩, lw, cl⟩] ⟨y, m, 1⟩ alloc).map ROutcome.totalShares =
        some (alloc / lw) ∧ alloc / lw < 0) := by
  constructor
  · intro rows pD alloc p hp hlow halloc
    have hmem0 : p ∈ (parseRows rows).filter fun r => decide (r.date = pD) := by
      rw [hp]
      exact List.mem_singleton_self p
    have hmem : p ∈ parseRows rows := List.mem_of_mem_filter hmem0
    have hne : parseRows rows ≠ [] := List.ne_nil_of_mem hmem
    obtain ⟨lastRow, hlast⟩ := Option.isSome_iff_exists.mp (List.getLast?_isSome.mpr hne)
    refine ⟨?_, div_neg_of_pos_of_neg halloc hlow⟩
    simp only [lumpSum, hp, List.head?_cons, hlast, Option.map_some']
  · intro y m lw cl alloc h1 h2 hlw halloc
    have hres : restricted [⟨some ⟨y, m, 1⟩, lw, cl⟩] ⟨y, m, 1⟩ =
        [⟨⟨y, m, 1⟩, lw, cl⟩] := by
      simp [restricted, sortedParsed, parseRows]
    have hdates : dateRangeMS (⟨y, m, 1⟩ : Date) (⟨y, m, 1⟩ : Date) = [⟨y, m, 1⟩] :=
      dateRangeMS_self h1 h2 rfl
    have hresolve : resolve [⟨⟨y, m, 1⟩, lw, cl⟩] ⟨y, m, 1⟩ =
        some ⟨⟨y, m, 1⟩, lw, cl⟩ := by
      simp [resolve]
    refine ⟨?_, div_neg_of_pos_of_neg halloc hlw⟩
    simp only [recurring, hres, recurringCore, List.getLastD, hdates, investLoop,
      hresolve, Option.map_some']
    norm_num

/-- Witness for C6 amended: at low −10 and allocation 100 both simulators
record −10 shares. -/
theorem c6_amended_witness :
    (lumpSum [⟨some ⟨2024, 3, 1⟩, -10, 95⟩] ⟨2024, 3, 1⟩ 100).map LOutcome.sharesBought =
      some (100 / (-10 : ℚ)) ∧
    (recurring [⟨some ⟨2024, 3, 1⟩, -10, 95⟩] ⟨2024, 3, 1⟩ 100).map ROutcome.totalShares =
      some (100 / (-10 : ℚ)) ∧
    (100 : ℚ) / (-10) < 0 := by
  obtain ⟨hl, hneg⟩ := c6_amended.1 [⟨some ⟨2024, 3, 1⟩, -10, 95⟩] ⟨2024, 3, 1⟩ 100
    ⟨⟨2024, 3, 1⟩, -10, 95⟩ rfl (by norm_num) (by norm_num)
  obtain ⟨hr, _⟩ := c6_amended.2 2024 3 (-10) 95 100 (by norm_num) (by norm_num)
    (by norm_num) (by norm_num)
  exact ⟨hl, hr, hneg⟩

theorem valid_of_mem_restricted {rows : List Row} {sD : Date} {x : PRow}
    (hv : ∀ r ∈ parseRows rows, ValidDate r.date)
    (hx : x ∈ restricted rows sD) : ValidDate x.date :=
  hv _ (mem_sortedParsed.mp (List.mem_of_mem_filter hx))

/-- C4: for an instrument with a non-empty restricted series, the
generated monthly investment dates are exactly the first days of calendar
months between effective_start (the first remaining point's date) and
effective_end (the last remaining point's date), inclusive. -/
theorem c4 (rows : List Row) (sD : Date)
    (hv : ∀ r ∈ parseRows rows, ValidDate r.date)
    (r0 : PRow) (rest : List PRow) (hr : restricted rows sD = r0 :: rest)
    (d : Date) :
    d ∈ dateRangeMS r0.date (rest.getLastD r0).date ↔
      d.day = 1 ∧ 1 ≤ d.month ∧ d.month ≤ 12 ∧
        r0.date.key ≤ d.key ∧ d.key ≤ (rest.getLastD r0).date.key := by
  have hr0 : r0 ∈ restricted rows sD := by
    rw [hr]
    exact List.mem_cons_self r0 rest
  have hrl : rest.getLastD r0 ∈ restricted rows sD := by
    rw [hr]
    exact getLastD_mem_cons rest r0
  exact mem_dateRangeMS (valid_of_mem_restricted hv hr0) (valid_of_mem_restricted hv hrl) d

/-- Witness for C4: on the series [(2024-03-01), (2024-06-01)] restricted
at 2024-03-01, the date 2024-04-01 is generated (it is a first-of-month
between the effective bounds). -/
theorem c4_witness :
    (⟨2024, 4, 1⟩ : Date) ∈
      dateRangeMS (⟨2024, 3, 1⟩ : Date)
        (([⟨⟨2024, 6, 1⟩, 100, 110⟩] : List PRow).getLastD ⟨⟨2024, 3, 1⟩, 90, 95⟩).date := by
  refine (c4 [⟨some ⟨2024, 3, 1⟩, 90, 95⟩, ⟨some ⟨2024, 6, 1⟩, 100, 110⟩] ⟨2024, 3, 1⟩
    (by decide) ⟨⟨2024, 3, 1⟩, 90, 95⟩ [⟨⟨2024, 6, 1⟩, 100, 110⟩] rfl ⟨2024, 4, 1⟩).mpr ?_
  refine ⟨rfl, by norm_num, by norm_num, by decide, by decide⟩

/-- C3: every generated monthly investment date resolves, over the
restricted slice the code uses, to the same purchase point as
at_or_before resolution over the original full sorted series; that point
is at or before the date and no point of the full series lies in the
half-open interval between it and the date. -/
theorem c3 (rows : List Row) (sD : Date)
    (hv : ∀ r ∈ parseRows rows, ValidDate r.date)
    (r0 : PRow) (rest : List PRow) (hr : restricted rows sD = r0 :: rest)
    (d : Date) (hd : d ∈ dateRangeMS r0.date (rest.getLastD r0).date) :
    resolve (r0 :: rest) d = resolve (sortedParsed rows) d ∧
    ∀ p, resolve (r0 :: rest) d = some p →
      p.date.key ≤ d.key ∧
        ∀ q ∈ sortedParsed rows, ¬ (p.date.key < q.date.key ∧ q.date.key ≤ d.key) := by
  have hr0 : r0 ∈ restricted rows sD := by
    rw [hr]
    exact List.mem_cons_self r0 rest
  have hrl : rest.getLastD r0 ∈ restricted rows sD := by
    rw [hr]
    exact getLastD_mem_cons rest r0
  have hkey : r0.date.key ≤ d.key :=
    ((mem_dateRangeMS (valid_of_mem_restricted hv hr0)
      (valid_of_mem_restricted hv hrl) d).mp hd).2.2.2.1
  have h1 : resolve (r0 :: rest) d = resolve (sortedParsed rows) d := by
    have hmemf : r0 ∈ (sortedParsed rows).filter fun r => decide (sD.key ≤ r.date.key) := hr0
    have h := resolve_restrict (sortedParsed_pairwise rows) ⟨r0, hmemf, hkey⟩
    rw [show ((sortedParsed rows).filter fun r => decide (sD.key ≤ r.date.key)) =
      r0 :: rest from hr] at h
    exact h
  refine ⟨h1, fun p hp => ?_⟩
  rw [h1] at hp
  obtain ⟨hpd, hmax⟩ := resolve_spec (sortedParsed_pairwise rows) hp
  refine ⟨hpd, fun q hq hcon => ?_⟩
  exact absurd (hmax q hq hcon.2) (not_le.mpr hcon.1)

/-- Witness for C3: on the two-row series, the generated date 2024-04-01
resolves over the restricted slice to the same row as over the full sorted
series. -/
theorem c3_witness :
    resolve [⟨⟨2024, 3, 1⟩, 90, 95⟩, ⟨⟨2024, 6, 1⟩, 100, 110⟩] ⟨2024, 4, 1⟩ =
      resolve (sortedParsed [⟨some ⟨2024, 3, 1⟩, 90, 95⟩, ⟨some ⟨2024, 6, 1⟩, 100, 110⟩])
        ⟨2024, 4, 1⟩ :=
  (c3 [⟨some ⟨2024, 3, 1⟩, 90, 95⟩, ⟨some ⟨2024, 6, 1⟩, 100, 110⟩] ⟨2024, 3, 1⟩
    (by decide) ⟨⟨2024, 3, 1⟩, 90, 95⟩ [⟨⟨2024, 6, 1⟩, 100, 110⟩] rfl ⟨2024, 4, 1⟩
    (by decide)).1

/-- C10: when the restricted series is non-empty the simulator returns a
result; every generated monthly date resolves, so the recorded purchase
events number exactly the generated dates and total_invested is that
count times the per-period allocation; with no generated date the
instrument still appears, with zero totals and zero profit. -/
theorem c10 (rows : List Row) (sD : Date) (alloc : ℚ)
    (hv : ∀ r ∈ parseRows rows, ValidDate r.date)
    (r0 : PRow) (rest : List PRow) (hr : restricted rows sD = r0 :: rest) :
    recurring rows sD alloc = some (recurringCore r0 rest alloc) ∧
    (recurringCore r0 rest alloc).history.length =
      (dateRangeMS r0.date (rest.getLastD r0).date).length ∧
    (recurringCore r0 rest alloc).totalInvestment =
      (dateRangeMS r0.date (rest.getLastD r0).date).length * alloc ∧
    (dateRangeMS r0.date (rest.getLastD r0).date = [] →
      (recurringCore r0 rest alloc).totalShares = 0 ∧
      (recurringCore r0 rest alloc).totalInvestment = 0 ∧
      (recurringCore r0 rest alloc).profit = 0 ∧
      (recurringCore r0 rest alloc).profitPct = 0) := by
  have hr0 : r0 ∈ restricted rows sD := by
    rw [hr]
    exact List.mem_cons_self r0 rest
  have hrl : rest.getLastD r0 ∈ restricted rows sD := by
    rw [hr]
    exact getLastD_mem_cons rest r0
  have hall : ∀ d ∈ dateRangeMS r0.date (rest.getLastD r0).date,
      ∃ p, resolve (r0 :: rest) d = some p := by
    intro d hd
    have hkey : r0.date.key ≤ d.key :=
      ((mem_dateRangeMS (valid_of_mem_restricted hv hr0)
        (valid_of_mem_restricted hv hrl) d).mp hd).2.2.2.1
    exact resolve_isSome (List.mem_cons_self r0 rest) hkey
  obtain ⟨hinv, hlen⟩ :=
    @investLoop_all_resolve (r0 :: rest) alloc (dateRangeMS r0.date (rest.getLastD r0).date) hall
  refine ⟨by simp [recurring, hr], hlen, hinv, ?_⟩
  intro hdates
  have hloop : investLoop (r0 :: rest) alloc
      (dateRangeMS r0.date (rest.getLastD r0).date) = (0, 0, []) := by
    rw [hdates, investLoop]
  refine ⟨?_, ?_, ?_, ?_⟩
  · show (investLoop (r0 :: rest) alloc
      (dateRangeMS r0.date (rest.getLastD r0).date)).1 = 0
    rw [hloop]
  · show (investLoop (r0 :: rest) alloc
      (dateRangeMS r0.date (rest.getLastD r0).date)).2.1 = 0
    rw [hloop]
  · show (investLoop (r0 :: rest) alloc
        (dateRangeMS r0.date (rest.getLastD r0).date)).1 * (rest.getLastD r0).close -
      (investLoop (r0 :: rest) alloc
        (dateRangeMS r0.date (rest.getLastD r0).date)).2.1 = 0
    rw [hloop]
    norm_num
  · show (if (investLoop (r0 :: rest) alloc
        (dateRangeMS r0.date (rest.getLastD r0).date)).2.1 > 0 then
        ((investLoop (r0 :: rest) alloc
            (dateRangeMS r0.date (rest.getLastD r0).date)).1 *
            (rest.getLastD r0).close -
          (investLoop (r0 :: rest) alloc
            (dateRangeMS r0.date (rest.getLastD r0).date)).2.1) /
          (investLoop (r0 :: rest) alloc
            (dateRangeMS r0.date (rest.getLastD r0).date)).2.1 * 100
      else 0) = 0
    rw [hloop]
    norm_num

/-- Witness for C10: on the two-row series starting 2024-03-01 the
simulator records one purchase per generated date (four dates, March
through June) and invests 100 per period. -/
theorem c10_witness :
    recurring [⟨some ⟨2024, 3, 1⟩, 90, 95⟩, ⟨some ⟨2024, 6, 1⟩, 100, 110⟩] ⟨2024, 3, 1⟩ 100 =
      some (recurringCore ⟨⟨2024, 3, 1⟩, 90, 95⟩ [⟨⟨2024, 6, 1⟩, 100, 110⟩] 100) ∧
    (recurringCore ⟨⟨2024, 3, 1⟩, 90, 95⟩ [⟨⟨2024, 6, 1⟩, 100, 110⟩] 100).history.length =
      (dateRangeMS (⟨2024, 3, 1⟩ : Date)
        (([⟨⟨2024, 6, 1⟩, 100, 110⟩] : List PRow).getLastD ⟨⟨2024, 3, 1⟩, 90, 95⟩).date).length ∧
    (recurringCore ⟨⟨2024, 3, 1⟩, 90, 95⟩ [⟨⟨2024, 6, 1⟩, 100, 110⟩] 100).totalInvestment =
      (dateRangeMS (⟨2024, 3, 1⟩ : Date)
        (([⟨⟨2024, 6, 1⟩, 100, 110⟩] : List PRow).getLastD ⟨⟨2024, 3, 1⟩, 90, 95⟩).date).length *
        100 := by
  obtain ⟨h1, h2, h3, _⟩ := c10
    [⟨some ⟨2024, 3, 1⟩, 90, 95⟩, ⟨some ⟨2024, 6, 1⟩, 100, 110⟩] ⟨2024, 3, 1⟩ 100
    (by decide) ⟨⟨2024, 3, 1⟩, 90, 95⟩ [⟨⟨2024, 6, 1⟩, 100, 110⟩] rfl
  exact ⟨h1, h2, h3⟩

theorem fst_mem_of_mem_processAllMain {basket : List (String × List Row)} {pD : Date}
    {alloc : ℚ} {nm : String} {o : LOutcome}
    (h : (nm, o) ∈ processAllMain basket pD alloc) : nm ∈ basket.map Prod.fst := by
  obtain ⟨⟨n', rs⟩, hmem, heq⟩ := List.mem_filterMap.mp h
  obtain ⟨a, _, ha⟩ := Option.map_eq_some'.mp heq
  have hn : n' = nm := congrArg Prod.fst ha
  subst hn
  exact List.mem_map.mpr ⟨(n', rs), hmem, rfl⟩

/-- C7: an instrument whose series lacks the purchase date is skipped: the
aggregate results are exactly those of the other instruments, the failing
instrument is absent from the results mapping, and the aggregation over
the collected results still runs (its total is the sum over the other
instruments). -/
theorem c7 (l1 l2 : List (String × List Row)) (nm : String) (rows : List Row)
    (pD : Date) (alloc : ℚ)
    (hfail : (parseRows rows).filter (fun r => decide (r.date = pD)) = []) :
    processAllMain (l1 ++ (nm, rows) :: l2) pD alloc =
      processAllMain l1 pD alloc ++ processAllMain l2 pD alloc ∧
    (nm ∉ (l1 ++ l2).map Prod.fst →
      ∀ o, (nm, o) ∉ processAllMain (l1 ++ (nm, rows) :: l2) pD alloc) ∧
    totalProfitMain (processAllMain (l1 ++ (nm, rows) :: l2) pD alloc) =
      totalProfitMain (processAllMain l1 pD alloc) +
        totalProfitMain (processAllMain l2 pD alloc) := by
  have hskip : lumpSum rows pD alloc = none := by
    simp only [lumpSum, hfail, List.head?_nil]
  have h1 : processAllMain (l1 ++ (nm, rows) :: l2) pD alloc =
      processAllMain l1 pD alloc ++ processAllMain l2 pD alloc := by
    simp only [processAllMain, List.filterMap_append, List.filterMap_cons, hskip,
      Option.map_none']
  refine ⟨h1, ?_, ?_⟩
  · intro hnm o hmem
    rw [h1] at hmem
    rcases List.mem_append.mp hmem with h | h
    · exact hnm (by
        rw [List.map_append]
        exact List.mem_append.mpr (Or.inl (fst_mem_of_mem_processAllMain h)))
    · exact hnm (by
        rw [List.map_append]
        exact List.mem_append.mpr (Or.inr (fst_mem_of_mem_processAllMain h)))
  · rw [h1, totalProfitMain, List.map_append, List.sum_append]
    rfl

/-- Witness for C7: with "X" lacking the purchase date between "A" and
"B", processing the three-instrument basket yields exactly the results of
"A" followed by "B". -/
theorem c7_witness :
    processAllMain
        [("A", [⟨some ⟨2024, 3, 1⟩, 90, 95⟩]), ("X", [⟨some ⟨2024, 4, 1⟩, 80, 90⟩]),
          ("B", [⟨some ⟨2024, 3, 1⟩, 50, 60⟩])] ⟨2024, 3, 1⟩ 1 =
      processAllMain [("A", [⟨some ⟨2024, 3, 1⟩, 90, 95⟩])] ⟨2024, 3, 1⟩ 1 ++
        processAllMain [("B", [⟨some ⟨2024, 3, 1⟩, 50, 60⟩])] ⟨2024, 3, 1⟩ 1 :=
  (c7 [("A", [⟨some ⟨2024, 3, 1⟩, 90, 95⟩])] [("B", [⟨some ⟨2024, 3, 1⟩, 50, 60⟩])]
    "X" [⟨some ⟨2024, 4, 1⟩, 80, 90⟩] ⟨2024, 3, 1⟩ 1 rfl).1

/-- C8: in the recurring simulator a zero total investment yields a zero
profit percentage rather than a division, both per instrument and in the
aggregate. -/
theorem c8 :
    (∀ (rows : List Row) (sD : Date) (alloc : ℚ) (o : ROutcome),
      recurring rows sD alloc = some o → o.totalInvestment = 0 → o.profitPct = 0) ∧
    (∀ results : List (String × ROutcome),
      totalInvestedTest results = 0 → totalProfitPercentTest results = 0) := by
  constructor
  · intro rows sD alloc o h hti
    cases hres : restricted rows sD with
    | nil => simp [recurring, hres] at h
    | cons r0 rest =>
      rw [recurring, hres] at h
      obtain rfl := (Option.some.injEq _ _ ▸ h).symm
      have hti' : (investLoop (r0 :: rest) alloc
          (dateRangeMS r0.date (rest.getLastD r0).date)).2.1 = 0 := hti
      show (if (investLoop (r0 :: rest) alloc
          (dateRangeMS r0.date (rest.getLastD r0).date)).2.1 > 0 then _ else 0) = 0
      rw [if_neg (by rw [hti']; exact lt_irrefl 0)]
  · intro results h
    rw [totalProfitPercentTest, if_neg (by rw [h]; exact lt_irrefl 0)]

/-- Witness for C8: a series whose only point lies after the last
first-of-month in range generates no purchases; the instrument still gets
a result with zero investment and zero profit percentage, and an empty
aggregate has zero total percentage. -/
theorem c8_witness :
    recurring [⟨some ⟨2024, 3, 5⟩, 90, 5⟩] ⟨2024, 3, 1⟩ 1 = some ⟨0, 0, 5, 0, 0, []⟩ ∧
    (ROutcome.profitPct ⟨0, 0, 5, 0, 0, []⟩ = 0) ∧
    totalProfitPercentTest [] = 0 := by
  have h : recurring [⟨some ⟨2024, 3, 5⟩, 90, 5⟩] ⟨2024, 3, 1⟩ 1 =
      some ⟨0, 0, 5, 0, 0, []⟩ := by
    norm_num [recurring, recurringCore, restricted, sortedParsed, parseRows, dateRangeMS,
      genMS, rollForwardIdx, msDate, msKey, Date.key, Date.monthIdx, investLoop, resolve]
  exact ⟨h, c8.1 [⟨some ⟨2024, 3, 5⟩, 90, 5⟩] ⟨2024, 3, 1⟩ 1 _ h rfl, c8.2 [] rfl⟩

/-- C9: in both scripts the ranked report sequence is a stable descending
sort by profit: it is pairwise non-increasing in profit, and for every
profit value the entries carrying that value appear in their original
insertion order. -/
theorem c9 :
    (∀ results : List (String × LOutcome),
      (sortedResultsMain results).Pairwise (fun a b => b.2.profit ≤ a.2.profit) ∧
      ∀ v : ℚ, (sortedResultsMain results).filter (fun x => decide (x.2.profit = v)) =
        results.filter (fun x => decide (x.2.profit = v))) ∧
    (∀ results : List (String × ROutcome),
      (sortedResultsTest results).Pairwise (fun a b => b.2.profit ≤ a.2.profit) ∧
      ∀ v : ℚ, (sortedResultsTest results).filter (fun x => decide (x.2.profit = v)) =
        results.filter (fun x => decide (x.2.profit = v))) := by
  constructor
  · intro results
    exact ⟨sortByKeyDesc_pairwise _ results, fun v => sortByKeyDesc_filter _ v results⟩
  · intro results
    exact ⟨sortByKeyDesc_pairwise _ results, fun v => sortByKeyDesc_filter _ v results⟩

end StockSim
